import Mathlib

/-!
Shallow embedding of the csv-to-parquet converter (Go) for specification
checking.  Pure functions of the source (`widenType`, `inferType`,
`detectSchema`'s sampling loop, header normalization, `outputPath`,
`recordToJSON`, the `writeParquet` row loop, and the result-slot assembly
of `ConvertAll`) are translated into executable Lean definitions;
file-system effects are passed in explicitly as environment values.
-/

namespace CsvToParquet

/-- The `fieldType` enumeration of converter.go (`typeString` is iota 0). -/
inductive fieldType where
  | typeString
  | typeInt64
  | typeFloat64
  | typeBool
  | typeDate
  | typeTimestamp
deriving DecidableEq, Repr

open fieldType

/-- The four atomic types that `inferType` can produce and that the spec's
join table ranges over; `typeDate` and `typeTimestamp` are declared in the
source but never produced. -/
def fieldType.atomic : fieldType → Prop
  | typeDate => False
  | typeTimestamp => False
  | _ => True

instance : DecidablePred fieldType.atomic := by
  intro t
  cases t <;> simp [fieldType.atomic] <;> infer_instance

/-- `widenType` of converter.go: returns the wider of two types
(string is widest). -/
def widenType (current new : fieldType) : fieldType :=
  if current = typeString ∨ new = typeString then typeString
  else if current = typeFloat64 ∨ new = typeFloat64 then
    -- int + float = float
    (if current = typeBool ∨ new = typeBool then typeString else typeFloat64)
  else if current = typeBool ∧ new = typeBool then typeBool
  else if (current = typeBool) ≠ (new = typeBool) then typeString -- bool + int/float → string
  else if current = typeInt64 ∧ new = typeInt64 then typeInt64
  else typeString

/-- Go `unicode.IsSpace` / the white space set trimmed by
`strings.TrimSpace` (Unicode White_Space property). -/
def isGoSpace (c : Char) : Bool :=
  c = ' ' || c = '\t' || c = '\n' || c = (Char.ofNat 0x0B) || c = (Char.ofNat 0x0C) ||
  c = '\r' || c = (Char.ofNat 0x85) || c = (Char.ofNat 0xA0) ||
  c = (Char.ofNat 0x1680) ||
  ((Char.ofNat 0x2000) ≤ c && c ≤ (Char.ofNat 0x200A)) ||
  c = (Char.ofNat 0x2028) || c = (Char.ofNat 0x2029) ||
  c = (Char.ofNat 0x202F) || c = (Char.ofNat 0x205F) ||
  c = (Char.ofNat 0x3000)

/-- Go `strings.TrimSpace`: drop Unicode white space from both ends. -/
def goTrimSpace (s : String) : String :=
  ⟨(((s.toList.dropWhile isGoSpace).reverse.dropWhile isGoSpace).reverse)⟩

/-- Go `strings.ToLower`, restricted to the ASCII range (the only case
mappings observable by the converter's comparisons against the ASCII
literals "true"/"false" and by its emitted boolean tokens). -/
def goToLowerChar (c : Char) : Char :=
  if 'A' ≤ c ∧ c ≤ 'Z' then Char.ofNat (c.toNat + 32) else c

/-- Per-rune lowercase mapping of `strings.ToLower`. -/
def goToLower (s : String) : String :=
  ⟨s.toList.map goToLowerChar⟩

/-! ### Go `strconv` parsers -/

def isDigitCh (c : Char) : Bool := '0' ≤ c && c ≤ '9'

def isHexLetter (c : Char) : Bool :=
  ('a' ≤ c && c ≤ 'f') || ('A' ≤ c && c ≤ 'F')

def hexVal (c : Char) : Nat :=
  if isDigitCh c then c.toNat - 48
  else if 'a' ≤ c && c ≤ 'f' then c.toNat - 87
  else if 'A' ≤ c && c ≤ 'F' then c.toNat - 55
  else 0

def natOfDigits (base : Nat) (ds : List Char) : Nat :=
  ds.foldl (fun acc c => acc * base + hexVal c) 0

/-- Go `strconv.ParseInt(val, 10, 64)`: optional sign, then one or more
ASCII decimal digits (no underscores since the base is fixed), rejecting
values outside the signed 64-bit range (range errors make `err != nil`,
which the converter treats as parse failure). -/
def goParseInt64 (s : String) : Option Int :=
  let cs := s.toList
  let p : Bool × List Char :=
    match cs with
    | '+' :: rest => (false, rest)
    | '-' :: rest => (true, rest)
    | _ => (false, cs)
  let neg := p.1
  let ds := p.2
  if ds = [] then none
  else if ds.all isDigitCh then
    let n := natOfDigits 10 ds
    if neg then
      if n ≤ 2 ^ 63 then some (-(n : Int)) else none
    else
      if n ≤ 2 ^ 63 - 1 then some (n : Int) else none
  else none

/-- Go `strconv`'s `underscoreOK`: underscores must sit between digits
(hex digits count after an `0x` prefix); the state char is `^` at start,
`0` after a digit, `_` after an underscore, `!` after anything else. -/
def underscoreLoop (hex : Bool) : Char → List Char → Bool
  | saw, [] => saw ≠ '_'
  | saw, c :: rest =>
    if isDigitCh c || (hex && isHexLetter c) then underscoreLoop hex '0' rest
    else if c = '_' then
      if saw ≠ '0' then false else underscoreLoop hex '_' rest
    else if saw = '_' then false
    else underscoreLoop hex '!' rest

def underscoreOK (cs : List Char) : Bool :=
  let cs1 :=
    match cs with
    | c :: rest => if c = '+' || c = '-' then rest else cs
    | [] => cs
  match cs1 with
  | '0' :: x :: rest =>
    if x = 'x' || x = 'X' then underscoreLoop true '0' rest
    else underscoreLoop false '^' cs1
  | _ => underscoreLoop false '^' cs1

/-- `strconv`'s `special`: "NaN" (unsigned) or "Inf"/"Infinity"
(optionally signed), case-insensitive, consuming the entire string
(`ParseFloat` rejects trailing text). -/
def isFloatSpecial (s : String) : Bool :=
  match s.toList with
  | [] => false
  | c :: rest =>
    if c = '+' || c = '-' then
      goToLower ⟨rest⟩ = "inf" || goToLower ⟨rest⟩ = "infinity"
    else
      goToLower s = "inf" || goToLower s = "infinity" || goToLower s = "nan"

/-- Mantissa scan of `strconv`'s `readFloat`: collect digits before and
after at most one dot (a second dot ends the scan), skipping underscores
(their placement is checked afterwards by `underscoreOK`). -/
def mantAux (hex : Bool) : Bool → List Char → List Char → List Char →
    List Char × List Char × List Char
  | _, ints, fracs, [] => (ints, fracs, [])
  | sawdot, ints, fracs, c :: rest =>
    if c = '_' then mantAux hex sawdot ints fracs rest
    else if c = '.' then
      if sawdot then (ints, fracs, c :: rest)
      else mantAux hex true ints fracs rest
    else if isDigitCh c || (hex && isHexLetter c) then
      if sawdot then mantAux hex sawdot ints (fracs ++ [c]) rest
      else mantAux hex sawdot (ints ++ [c]) fracs rest
    else (ints, fracs, c :: rest)

/-- Exponent part of `readFloat`: after `e`/`p`, an optional sign then at
least one digit (underscores allowed between digits). -/
def parseExp (cs : List Char) : Option (Int × List Char) :=
  let q : Bool × List Char :=
    match cs with
    | '+' :: rest => (false, rest)
    | '-' :: rest => (true, rest)
    | _ => (false, cs)
  match q.2 with
  | [] => none
  | c :: _ =>
    if isDigitCh c then
      let ds := q.2.takeWhile (fun d => isDigitCh d || d = '_')
      let rest := q.2.dropWhile (fun d => isDigitCh d || d = '_')
      let e : Int := natOfDigits 10 (ds.filter isDigitCh)
      some (if q.1 then -e else e, rest)
    else none

/-- Exact rational value of a parsed mantissa/exponent
(`digits * base^(-#fracDigits) * step^exp`). -/
def floatValQ (base step : ℚ) (ints fracs : List Char) (e : Int)
    (baseNat : Nat) (fracScale : Int) : ℚ :=
  ((natOfDigits baseNat (ints ++ fracs) : ℚ)) * base ^ (-(fracScale * fracs.length : Int)) * step ^ e

/-- Syntax and exact value of Go `strconv.ParseFloat`'s `readFloat` pass
over the whole string: optional sign, optional `0x` prefix (hex requires
a `p` exponent, decimal allows an optional `e` exponent), at least one
mantissa digit, full consumption, and valid underscore placement. -/
def readFloatVal (cs : List Char) : Option ℚ :=
  let p : Bool × List Char :=
    match cs with
    | '+' :: rest => (true, rest)
    | '-' :: rest => (true, rest)
    | _ => (false, cs)
  let neg : Bool :=
    match cs with
    | '-' :: _ => true
    | _ => false
  let h : Bool × List Char :=
    match p.2 with
    | '0' :: x :: rest => if x = 'x' || x = 'X' then (true, rest) else (false, p.2)
    | _ => (false, p.2)
  let hex := h.1
  let m := mantAux hex false [] [] h.2
  let ints := m.1
  let fracs := m.2.1
  let rest := m.2.2
  if ints = [] ∧ fracs = [] then none
  else if ¬ underscoreOK cs then none
  else
    let mkVal : Int → ℚ := fun e =>
      let v : ℚ :=
        if hex then floatValQ 2 2 ints fracs e 16 4
        else floatValQ 10 10 ints fracs e 10 1
      if neg then -v else v
    match rest with
    | [] => if hex then none else some (mkVal 0)
    | c :: rest2 =>
      if (¬ hex ∧ goToLowerChar c = 'e') ∨ (hex ∧ goToLowerChar c = 'p') then
        match parseExp rest2 with
        | none => none
        | some (e, rest3) => if rest3 = [] then some (mkVal e) else none
      else none

/-- Smallest magnitude that overflows a float64 under round-to-nearest-even
(`2^1024 - 2^970`); at or above it `ParseFloat` reports `ErrRange`. -/
def floatOverflowThreshold : ℚ := 2 ^ 1024 - 2 ^ 970

/-- Go `strconv.ParseFloat(val, 64)` succeeds (`err == nil`): a special
value (Inf/NaN), or a syntactically valid number whose exact value stays
below the overflow threshold (underflow to zero reports no error). -/
def goParseFloat64Ok (s : String) : Bool :=
  if isFloatSpecial s then true
  else
    match readFloatVal s.toList with
    | none => false
    | some v => |v| < floatOverflowThreshold

/-! ### Go `time.Parse` layout matchers

The six layouts of `inferType`'s `dateFormats`.  Each matcher follows
`time.Parse`: fixed-width numeric fields (`2006` is four digits, `01`,
`02`, `15`, `04`, `05` are two), literal separators, an optional
fractional-second run after the seconds field, and the range validation
Parse performs (month 1–12, day within the month incl. leap years,
hour ≤ 23, minute/second ≤ 59). -/

def d2 (a b : Char) : Nat := (a.toNat - 48) * 10 + (b.toNat - 48)

def d4 (a b c d : Char) : Nat :=
  ((a.toNat - 48) * 10 + (b.toNat - 48)) * 100 + (c.toNat - 48) * 10 + (d.toNat - 48)

def isLeapYear (y : Nat) : Bool := y % 4 = 0 && (y % 100 ≠ 0 || y % 400 = 0)

def daysIn (m y : Nat) : Nat :=
  if m = 2 then (if isLeapYear y then 29 else 28)
  else if m = 4 ∨ m = 6 ∨ m = 9 ∨ m = 11 then 30
  else 31

def validYMD (y m d : Nat) : Bool :=
  1 ≤ m && m ≤ 12 && 1 ≤ d && d ≤ daysIn m y

def validHMS (h mi s : Nat) : Bool := h ≤ 23 && mi ≤ 59 && s ≤ 59

/-- Consume `YYYY-MM-DD`; return the rest on success. -/
def matchDateDash : List Char → Option (List Char)
  | y1 :: y2 :: y3 :: y4 :: '-' :: m1 :: m2 :: '-' :: dd1 :: dd2 :: rest =>
    if [y1, y2, y3, y4, m1, m2, dd1, dd2].all isDigitCh &&
        validYMD (d4 y1 y2 y3 y4) (d2 m1 m2) (d2 dd1 dd2) then
      some rest
    else none
  | _ => none

/-- Consume `AA/BB/YYYY` where `f` decides which of the two leading
fields is the day (layouts `02/01/2006` and `01/02/2006`). -/
def matchSlashDate (dayFirst : Bool) : List Char → Option (List Char)
  | a1 :: a2 :: '/' :: b1 :: b2 :: '/' :: y1 :: y2 :: y3 :: y4 :: rest =>
    let a := d2 a1 a2
    let b := d2 b1 b2
    let y := d4 y1 y2 y3 y4
    let ok :=
      if dayFirst then validYMD y b a else validYMD y a b
    if [a1, a2, b1, b2, y1, y2, y3, y4].all isDigitCh && ok then some rest else none
  | _ => none

/-- Consume `15:04:05` plus an optional fractional-second run. -/
def matchTime : List Char → Option (List Char)
  | h1 :: h2 :: ':' :: m1 :: m2 :: ':' :: s1 :: s2 :: rest =>
    if [h1, h2, m1, m2, s1, s2].all isDigitCh &&
        validHMS (d2 h1 h2) (d2 m1 m2) (d2 s1 s2) then
      match rest with
      | '.' :: r2 =>
        if r2.takeWhile isDigitCh ≠ [] then some (r2.dropWhile isDigitCh)
        else some rest
      | _ => some rest
    else none
  | _ => none

/-- Consume the `Z07:00` zone of RFC3339: `Z` or `±hh:mm`. -/
def matchZone : List Char → Option (List Char)
  | 'Z' :: rest => some rest
  | c :: h1 :: h2 :: ':' :: m1 :: m2 :: rest =>
    if (c = '+' || c = '-') && [h1, h2, m1, m2].all isDigitCh &&
        d2 h1 h2 ≤ 23 && d2 m1 m2 ≤ 59 then
      some rest
    else none
  | _ => none

def matchesLayoutDate (s : List Char) : Bool := matchDateDash s = some []

def matchesLayoutDMY (s : List Char) : Bool := matchSlashDate true s = some []

def matchesLayoutMDY (s : List Char) : Bool := matchSlashDate false s = some []

def matchesLayoutDateTime (sep : Char) (s : List Char) : Bool :=
  match matchDateDash s with
  | some (c :: rest) => c = sep && matchTime rest = some []
  | _ => false

def matchesLayoutRFC3339 (s : List Char) : Bool :=
  match matchDateDash s with
  | some ('T' :: rest) =>
    match matchTime rest with
    | some zs => matchZone zs = some []
    | none => false
  | _ => false

/-- The `dateFormats` loop of `inferType`: does any of the six layouts
parse the whole value? -/
def matchesAnyDateFormat (s : String) : Bool :=
  let cs := s.toList
  matchesLayoutDate cs || matchesLayoutDMY cs || matchesLayoutMDY cs ||
  matchesLayoutDateTime 'T' cs || matchesLayoutDateTime ' ' cs ||
  matchesLayoutRFC3339 cs

/-! ### Type inference and schema detection -/

/-- `inferType` of converter.go. -/
def inferType (val0 : String) : fieldType :=
  let val := goTrimSpace val0
  if val = "" then typeString
  else
    let lower := goToLower val
    if lower = "true" ∨ lower = "false" then typeBool
    else if (goParseInt64 val).isSome then typeInt64
    else if goParseFloat64Ok val then typeFloat64
    else if matchesAnyDateFormat val then typeString -- store dates as strings for compatibility
    else typeString

/-- Go `strings.TrimPrefix(h, "\xef\xbb\xbf")`: drop one leading U+FEFF. -/
def stripBOM (s : String) : String :=
  match s.toList with
  | c :: rest => if c = Char.ofNat 0xFEFF then ⟨rest⟩ else s
  | [] => s

/-- Go `strings.ReplaceAll` for single-character patterns. -/
def replaceAllChar (a b : Char) (s : String) : String :=
  ⟨s.toList.map (fun c => if c = a then b else c)⟩

/-- Header cleaning of `detectSchema` (one header at zero-based index `i`):
strip BOM, trim spaces, replace space and dot with underscore, and use a
positional placeholder when empty. -/
def normalizeHeader (i : Nat) (h : String) : String :=
  let h1 := stripBOM h
  let h2 := goTrimSpace h1
  let h3 := replaceAllChar ' ' '_' h2
  let h4 := replaceAllChar '.' '_' h3
  if h4 = "" then "column_" ++ toString i else h4

def normalizeHeaders (hs : List String) : List String :=
  hs.enum.map (fun p => normalizeHeader p.1 p.2)

/-- Header normalization as the spec words it, for comparison with the
code's `normalizeHeader`: strip a leading byte-order mark, trim
surrounding whitespace, replace every space and every dot with an
underscore (one pass), and substitute the positional placeholder when
the result is empty. -/
def normalizeHeaderSpec (i : Nat) (h : String) : String :=
  let t := goTrimSpace (stripBOM h)
  let r : String := ⟨t.toList.map (fun c => if c = ' ' ∨ c = '.' then '_' else c)⟩
  if r = "" then "column_" ++ toString i else r

/-- The inner cell loop of `detectSchema`'s sampling phase: cells beyond
the header count are ignored, raw-empty cells are skipped ("don't
downgrade type"), other cells widen the column's working type. -/
def updateTypes : List fieldType → List String → List fieldType
  | ts, [] => ts
  | [], _ => []
  | t :: ts, v :: vs =>
    (if v = "" then t else widenType t (inferType v)) :: updateTypes ts vs

/-- One row-read attempt during sampling: `none` models a malformed-row
error from `csv.Reader.Read`, `some cells` a successful read; the end of
the list models `io.EOF`. -/
abbrev ReadAttempt := Option (List String)

/-- The sampling loop of `detectSchema`: at most `sampleRows` read
attempts; EOF (list exhausted) stops early; a malformed row consumes the
attempt and contributes no evidence. -/
def sampleTypes : Nat → List ReadAttempt → List fieldType → List fieldType
  | 0, _, ts => ts
  | _ + 1, [], ts => ts
  | n + 1, none :: rest, ts => sampleTypes n rest ts
  | n + 1, some rec :: rest, ts => sampleTypes n rest (updateTypes ts rec)

/-- `detectSchema` of converter.go over the sequence of CSV reads (first
read is the header row): returns the normalized headers and the sampled
column types, with every working type initialized to Int64
("start optimistic"); fails when the header read errors or hits EOF. -/
def detectSchema (reads : List ReadAttempt) (sampleRows : Nat) :
    Option (List String × List fieldType) :=
  match reads with
  | [] => none
  | none :: _ => none
  | some hs :: rest =>
    let headers := normalizeHeaders hs
    some (headers, sampleTypes sampleRows rest (List.replicate headers.length typeInt64))

/-! ### Go `path/filepath` (unix rules) -/

/-- Split a character list on `/` (adjacent separators yield empty
pieces, as in Go's element-wise view of a path). -/
def splitChars : List Char → List (List Char)
  | [] => [[]]
  | c :: rest =>
    let r := splitChars rest
    if c = '/' then [] :: r
    else
      match r with
      | [] => [[c]]
      | a :: as => (c :: a) :: as

/-- The component processing of `filepath.Clean`: empty and `.` elements
are dropped; `..` pops the last kept element, is discarded at the root of
a rooted path, and accumulates at the front of an unrooted path. -/
def cleanLoop (rooted : Bool) : List (List Char) → List (List Char) → List (List Char)
  | acc, [] => acc
  | acc, c :: rest =>
    if c = ['.'] then cleanLoop rooted acc rest
    else if c = ['.', '.'] then
      if acc ≠ [] ∧ acc.getLast? ≠ some ['.', '.'] then
        cleanLoop rooted acc.dropLast rest
      else if rooted then cleanLoop rooted acc rest
      else cleanLoop rooted (acc ++ [['.', '.']]) rest
  else cleanLoop rooted (acc ++ [c]) rest

/-- Join path components with `/`. -/
def joinComps : List (List Char) → List Char
  | [] => []
  | [c] => c
  | c :: rest => c ++ '/' :: joinComps rest

/-- Render components back into a path string. -/
def renderPath (rooted : Bool) (comps : List (List Char)) : String :=
  ⟨(if rooted then ['/'] else []) ++ joinComps comps⟩

/-- A plain path component: non-empty, no separator, and not one of the
special `.`/`..` elements that `Clean` rewrites. -/
def normalComp (c : List Char) : Prop :=
  c ≠ [] ∧ '/' ∉ c ∧ c ≠ ['.'] ∧ c ≠ ['.', '.']

instance : DecidablePred normalComp := fun c => by
  unfold normalComp
  infer_instance

/-- Go `filepath.Clean` (unix): shortest lexically equivalent path. -/
def goClean (s : String) : String :=
  if s = "" then "."
  else
    let cs := s.toList
    let rooted := cs.headI == '/'
    let comps := (splitChars cs).filter (· ≠ [])
    let out := cleanLoop rooted [] comps
    if out = [] then (if rooted then "/" else ".") else renderPath rooted out

/-- Go `filepath.Ext`: the suffix of the final element starting at its
last dot (empty if the final element has no dot). -/
def extAux : List Char → List Char → String
  | [], _ => ""
  | c :: rest, acc =>
    if c = '/' then ""
    else if c = '.' then ⟨'.' :: acc⟩
    else extAux rest (c :: acc)

def goExt (s : String) : String := extAux s.toList.reverse []

/-- Go `filepath.Base`: strip trailing separators, then keep everything
after the last separator (`.` for empty, `/` for all-separator paths). -/
def goBase (s : String) : String :=
  if s = "" then "."
  else
    let rev := s.toList.reverse.dropWhile (· = '/')
    if rev = [] then "/"
    else ⟨(rev.takeWhile (· ≠ '/')).reverse⟩

/-- Go `filepath.Dir`: `Clean` of everything up to and including the
final separator (`.` when there is none). -/
def goDir (s : String) : String :=
  let kept := (s.toList.reverse.dropWhile (· ≠ '/')).reverse
  goClean ⟨kept⟩

/-- Go `strings.TrimSuffix`: drop the suffix when present. -/
def goTrimSuffix (s suffix : String) : String :=
  if suffix.toList.isSuffixOf s.toList then
    ⟨s.toList.take (s.toList.length - suffix.toList.length)⟩
  else s

/-- The configuration fields the converter core reads (loaded externally;
`batchSize` is a Go `int`). -/
structure Config where
  inputPath : String := ""
  outputDir : String := ""
  deleteOriginal : Bool := true
  batchSize : Int := 10000
  delimiter : String := ","
  sampleRows : Nat := 100

/-- Go `filepath.Join` for two elements: empty elements are skipped,
the rest joined with `/` and cleaned. -/
def goJoin (a b : String) : String :=
  if a = "" ∧ b = "" then ""
  else if a = "" then goClean b
  else if b = "" then goClean a
  else goClean (a ++ "/" ++ b)

/-- `outputPath` of converter.go: same base name with `.parquet`, in the
input's directory unless an output directory is configured. -/
def outputPath (inputFile : String) (cfg : Config) : String :=
  let base := goTrimSuffix (goBase inputFile) (goExt inputFile)
  let dir := if cfg.outputDir ≠ "" then cfg.outputDir else goDir inputFile
  goJoin dir (base ++ ".parquet")

/-! ### `recordToJSON` — the sparse row encoder -/

/-- The typed value emitted for one present field of a row.  The Int64
branch carries the parsed integer, the Float64 branch the trimmed source
text whose parsed value `%g` would print (binary float formatting is
abstracted; presence and the parsed source are preserved), the Bool
branch the lower-cased token, and the String branch the escaped text. -/
inductive FieldVal where
  | int (v : Int)
  | float (raw : String)
  | bool (tok : String)
  | str (escaped : String)
deriving DecidableEq, Repr

/-- The two sequential `strings.ReplaceAll` escapes of the String branch:
backslash first, then double quote. -/
def escapeJSON (s : String) : String :=
  let s1 : String :=
    ⟨s.toList.foldr (fun c acc => if c = '\\' then '\\' :: '\\' :: acc else c :: acc) []⟩
  ⟨s1.toList.foldr (fun c acc => if c = '\"' then '\\' :: '\"' :: acc else c :: acc) []⟩

/-- One iteration of `recordToJSON`'s column loop: the trimmed cell at
position `i` (empty when the row is short), skipped when empty, otherwise
encoded per the column's decided type with defensive omission on numeric
parse failure. -/
def fieldFor (record : List String) (i : Nat) (h : String) (t : fieldType) :
    Option (String × FieldVal) :=
  let val := goTrimSpace (record.getD i "")
  if val = "" then none -- omit null/empty fields (OPTIONAL)
  else
    match t with
    | typeInt64 => (goParseInt64 val).map (fun v => (h, FieldVal.int v))
    | typeFloat64 => if goParseFloat64Ok val then some (h, FieldVal.float val) else none
    | typeBool => some (h, FieldVal.bool (goToLower val))
    | _ => some (h, FieldVal.str (escapeJSON val))

/-- `recordToJSON` of converter.go as the ordered list of present
(name, typed value) fields of one encoded row. -/
def recordToJSON (record headers : List String) (types : List fieldType) :
    List (String × FieldVal) :=
  (headers.zip types).enum.filterMap (fun p => fieldFor record p.1 p.2.1 p.2.2)

/-! ### The `writeParquet` row loop -/

/-- One data-row event during the streaming pass: a malformed read, or a
successfully read record together with whether `pw.Write` accepts it. -/
inductive RowEvent where
  | malformed
  | row (rec : List String) (writeOk : Bool)

/-- Go's `%` on ints: panics (models as `none`) when the divisor is 0. -/
def goIntMod (a b : Int) : Option Int :=
  if b = 0 then none else some (a % b)

/-- The row loop of `writeParquet`: malformed rows and rejected writes
are logged and skipped; each successfully written row increments
`rowCount` and evaluates `rowCount % batchSize` for progress logging.
Returns the final row count, or the run-time panic message of a zero
modulus. -/
def writeLoop (headers : List String) (types : List fieldType) (batchSize : Int) :
    List RowEvent → Nat → Except String Nat
  | [], n => .ok n
  | .malformed :: rest, n => writeLoop headers types batchSize rest n
  | .row rec writeOk :: rest, n =>
    let _json := recordToJSON rec headers types
    if writeOk then
      match goIntMod ((n : Int) + 1) batchSize with
      | none => .error "runtime error: integer divide by zero"
      | some _ => writeLoop headers types batchSize rest (n + 1)
    else writeLoop headers types batchSize rest n

/-! ### `ConvertAll` result-slot assembly and `convertFile` -/

/-- The result slots of `ConvertAll`: a task for list position `i` runs
the per-file conversion `f` on the `i`-th file and stores the outcome in
slot `i` (`results[idx] = convertFile(file, ...)`); `order` is the order
in which the concurrently running tasks happen to complete their writes.
`none` marks a slot not yet written. -/
def runTasks {α β : Type} (f : α → β) (files : List α) (order : List Nat) :
    List (Option β) :=
  order.foldl
    (fun res i =>
      match files.get? i with
      | some file => res.set i (some (f file))
      | none => res)
    (List.replicate files.length none)

/-- The `Result` record of converter.go (`Err` as an optional message). -/
structure GoResult where
  inputFile : String := ""
  outputFile : String := ""
  inputSize : Int := 0
  outputSize : Int := 0
  err : Option String := none
deriving DecidableEq, Repr

/-- Outcomes of the file-system effects `convertFile` performs, passed in
explicitly: `statInput`/`statOutput` yield a size or fail (`none`),
`schema` is `detectSchema`'s outcome, `mkdirOk`/`writeOk`/`removeInputOk`
tell whether creating the output dir, the whole `writeParquet` call, and
the original's deletion succeed. -/
structure FsEnv where
  statInput : Option Int := none
  schema : Option (List String × List fieldType) := none
  mkdirOk : Bool := true
  writeOk : Bool := true
  statOutput : Option Int := none
  removeInputOk : Bool := true

/-- File-system actions `convertFile` takes, in order. -/
inductive FsAction where
  | wrote (p : String)
  | removedPartialOutput (p : String)
  | deletedOriginal (p : String)
deriving DecidableEq, Repr

/-- `convertFile` of converter.go as a state machine over `FsEnv`:
stat input → detect schema → prepare output dir → write → verify output
(missing or zero-length output fails the file even after a successful
write) → optional delete of the original (its failure only warns). -/
def convertFile (inputFile : String) (cfg : Config) (env : FsEnv) :
    GoResult × List FsAction :=
  match env.statInput with
  | none => ({ inputFile := inputFile, err := some "stat input" }, [])
  | some isz =>
    let outFile := outputPath inputFile cfg
    let res : GoResult :=
      { inputFile := inputFile, outputFile := outFile, inputSize := isz }
    match env.schema with
    | none => ({ res with err := some "detecting schema" }, [])
    | some _ =>
      if cfg.outputDir ≠ "" ∧ ¬ env.mkdirOk then
        ({ res with err := some "creating output dir" }, [])
      else if ¬ env.writeOk then
        ({ res with err := some "writing parquet" },
         [.wrote outFile, .removedPartialOutput outFile])
      else
        match env.statOutput with
        | none => ({ res with err := some "output verification failed" }, [.wrote outFile])
        | some osz =>
          if osz = 0 then
            ({ res with err := some "output verification failed" }, [.wrote outFile])
          else
            ({ res with outputSize := osz },
             [.wrote outFile] ++
               (if cfg.deleteOriginal ∧ env.removeInputOk then
                 [.deletedOriginal inputFile]
               else []))

/-! ## Theorems -/

/-- C1: over the four atomic FieldTypes, `widenType` is the spec's
symmetric join table: commutative, idempotent, Int64⊔Float64 = Float64,
Bool⊔non-Bool = String, and String absorbs everything. -/
theorem claim_C1 (a b : fieldType) (ha : a.atomic) (hb : b.atomic) :
    widenType a b = widenType b a ∧
    widenType a a = a ∧
    widenType typeInt64 typeFloat64 = typeFloat64 ∧
    (a ≠ typeBool → widenType typeBool a = typeString) ∧
    widenType typeString a = typeString ∧
    widenType a typeString = typeString := by
  cases a <;> cases b <;> simp [fieldType.atomic] at ha hb ⊢ <;> decide

/-- C1 witness: the table at the concrete pair (Int64, Float64). -/
theorem claim_C1_witness :
    widenType typeInt64 typeFloat64 = widenType typeFloat64 typeInt64 ∧
    widenType typeInt64 typeInt64 = typeInt64 ∧
    widenType typeInt64 typeFloat64 = typeFloat64 ∧
    (typeInt64 ≠ typeBool → widenType typeBool typeInt64 = typeString) ∧
    widenType typeString typeInt64 = typeString ∧
    widenType typeInt64 typeString = typeString :=
  claim_C1 typeInt64 typeFloat64 (by decide) (by decide)

/-- An exactly-empty cell leaves the column's working type unchanged. -/
theorem updateTypes_empty_single (ts : List fieldType) : updateTypes ts [""] = ts := by
  cases ts <;> simp [updateTypes]

/-- C2 counterexample: a whitespace-only cell trims to empty yet widens
an Int64 column to String (the code skips only cells that are exactly
`""`; `inferType` classifies a trims-to-empty value as String). -/
theorem claim_C2_counterexample :
    goTrimSpace " " = "" ∧
    sampleTypes 100 [some ["1"], some [" "]] [typeInt64] = [typeString] ∧
    sampleTypes 100 [some ["1"]] [typeInt64] = [typeInt64] := by
  refine ⟨rfl, ?_, ?_⟩ <;> decide

/-- C2 (amended): a cell that is exactly the empty string contributes no
type evidence; a non-empty cell that merely trims to empty is classified
as String and widens the column; sampling ["1","","2"] still matches
sampling ["1","2"] and yields Int64. -/
theorem claim_C2_amended :
    (∀ (t : fieldType) ts vs, updateTypes (t :: ts) ("" :: vs) = t :: updateTypes ts vs) ∧
    (∀ v, v ≠ "" → goTrimSpace v = "" → inferType v = typeString) ∧
    (∀ ts, sampleTypes 100 [some ["1"], some [""], some ["2"]] ts =
      sampleTypes 100 [some ["1"], some ["2"]] ts) ∧
    sampleTypes 100 [some ["1"], some [""], some ["2"]] [typeInt64] = [typeInt64] := by
  refine ⟨?_, ?_, ?_, by decide⟩
  · intro t ts vs
    simp [updateTypes]
  · intro v hne htrim
    simp [inferType, htrim]
  · intro ts
    simp [sampleTypes, updateTypes_empty_single]

/-- C2 witness: the amended statement applied at the whitespace cell. -/
theorem claim_C2_amended_witness :
    inferType " " = typeString ∧
    updateTypes [typeInt64] ("" :: []) = typeInt64 :: updateTypes [] [] :=
  ⟨claim_C2_amended.2.1 " " (by decide) (by decide),
   claim_C2_amended.1 typeInt64 [] []⟩

/-- C3: a cell that is non-empty after trimming is classified by the
exact priority bool → int64 → float64 → (date patterns, still String) →
String, and never as a distinct date type. -/
theorem claim_C3 (v : String) (hv : goTrimSpace v ≠ "") :
    ((goToLower (goTrimSpace v) = "true" ∨ goToLower (goTrimSpace v) = "false") →
      inferType v = typeBool) ∧
    (¬(goToLower (goTrimSpace v) = "true" ∨ goToLower (goTrimSpace v) = "false") →
      (goParseInt64 (goTrimSpace v)).isSome → inferType v = typeInt64) ∧
    (¬(goToLower (goTrimSpace v) = "true" ∨ goToLower (goTrimSpace v) = "false") →
      ¬(goParseInt64 (goTrimSpace v)).isSome →
      goParseFloat64Ok (goTrimSpace v) = true → inferType v = typeFloat64) ∧
    (¬(goToLower (goTrimSpace v) = "true" ∨ goToLower (goTrimSpace v) = "false") →
      ¬(goParseInt64 (goTrimSpace v)).isSome →
      ¬goParseFloat64Ok (goTrimSpace v) = true →
      matchesAnyDateFormat (goTrimSpace v) = true → inferType v = typeString) ∧
    (¬(goToLower (goTrimSpace v) = "true" ∨ goToLower (goTrimSpace v) = "false") →
      ¬(goParseInt64 (goTrimSpace v)).isSome →
      ¬goParseFloat64Ok (goTrimSpace v) = true → inferType v = typeString) ∧
    inferType v ≠ typeDate ∧ inferType v ≠ typeTimestamp := by
  have hmain : ∀ P : fieldType → Prop, P typeBool → P typeInt64 → P typeFloat64 →
      P typeString → P (inferType v) := by
    intro P hb hi hf hs
    by_cases h1 : goTrimSpace v = ""
    · simpa [inferType, h1] using hs
    · by_cases h2 : goToLower (goTrimSpace v) = "true" ∨ goToLower (goTrimSpace v) = "false"
      · simpa [inferType, h1, h2] using hb
      · by_cases h3 : (goParseInt64 (goTrimSpace v)).isSome
        · simpa [inferType, h1, h2, h3] using hi
        · by_cases h4 : goParseFloat64Ok (goTrimSpace v)
          · simpa [inferType, h1, h2, h3, h4] using hf
          · by_cases h5 : matchesAnyDateFormat (goTrimSpace v) <;>
              simpa [inferType, h1, h2, h3, h4, h5] using hs
  refine ⟨?_, ?_, ?_, ?_, ?_, ?_, ?_⟩
  · intro hbool
    simp [inferType, hv, hbool]
  · intro hnb hint
    simp [inferType, hv, hnb, hint]
  · intro hnb hni hfl
    simp [inferType, hv, hnb, hni, hfl]
  · intro hnb hni hnf _
    simp [inferType, hv, hnb, hni, hnf]
  · intro hnb hni hnf
    simp [inferType, hv, hnb, hni, hnf]
  · exact hmain (fun t => t ≠ typeDate) (by decide) (by decide) (by decide) (by decide)
  · exact hmain (fun t => t ≠ typeTimestamp) (by decide) (by decide) (by decide) (by decide)

/-- C3 witness: the priority chain applied to a date-like value, which
stays String. -/
theorem claim_C3_witness :
    inferType "2026-10-11" = typeString ∧ inferType "2026-10-11" ≠ typeDate :=
  ⟨(claim_C3 "2026-10-11" (by decide)).2.2.2.1 (by decide) (by decide) (by decide) (by decide),
   (claim_C3 "2026-10-11" (by decide)).2.2.2.2.2.1⟩

/-- Normalization keeps the column count. -/
theorem normalizeHeaders_length (hs : List String) :
    (normalizeHeaders hs).length = hs.length := by
  simp [normalizeHeaders]

/-- Sampling consumes at most `N` read attempts: the result depends only
on the first `N` elements of the read stream. -/
theorem sampleTypes_take (N : Nat) (rest : List ReadAttempt) (ts : List fieldType) :
    sampleTypes N rest ts = sampleTypes N (rest.take N) ts := by
  induction N generalizing rest ts with
  | zero => simp [sampleTypes]
  | succ n ih =>
    cases rest with
    | nil => simp [sampleTypes]
    | cons r rest =>
      cases r with
      | none => simpa [sampleTypes] using ih rest ts
      | some rec => simpa [sampleTypes] using ih rest (updateTypes ts rec)

/-- C4: schema sampling starts every column at Int64, makes at most `N`
read attempts, treats a malformed-row attempt as consumed without
contributing evidence, and stops at end of input. -/
theorem claim_C4 (hs : List String) (rest : List ReadAttempt) (N : Nat)
    (ts : List fieldType) :
    detectSchema (some hs :: rest) N =
      some (normalizeHeaders hs,
        sampleTypes N rest (List.replicate hs.length typeInt64)) ∧
    (∀ rest2, 0 < N → sampleTypes N (none :: rest2) ts = sampleTypes (N - 1) rest2 ts) ∧
    sampleTypes N rest ts = sampleTypes N (rest.take N) ts ∧
    (∀ M, sampleTypes M [] ts = ts) := by
  refine ⟨?_, ?_, sampleTypes_take N rest ts, ?_⟩
  · simp [detectSchema, normalizeHeaders_length]
  · intro rest2 hN
    cases N with
    | zero => exact absurd hN (by decide)
    | succ n => simp [sampleTypes]
  · intro M
    cases M <;> simp [sampleTypes]

/-- C4 witness: a malformed attempt consumes one of three budgeted reads
and leaves the evidence unchanged. -/
theorem claim_C4_witness :
    sampleTypes 3 (none :: [some ["7"]]) [typeInt64] =
      sampleTypes 2 [some ["7"]] [typeInt64] :=
  (claim_C4 ["h"] [] 3 [typeInt64]).2.1 [some ["7"]] (by decide)

/-- A field is present exactly when the trimmed cell is non-empty and —
for numeric column types — parses. -/
theorem fieldFor_isSome_iff (record : List String) (i : Nat) (h : String) (t : fieldType) :
    (fieldFor record i h t).isSome ↔
      (goTrimSpace (record.getD i "") ≠ "" ∧
       (t = typeInt64 → (goParseInt64 (goTrimSpace (record.getD i ""))).isSome) ∧
       (t = typeFloat64 → goParseFloat64Ok (goTrimSpace (record.getD i "")) = true)) := by
  simp only [fieldFor]
  generalize goTrimSpace (record.getD i "") = val
  by_cases hval : val = ""
  · subst hval
    simp
  · rw [if_neg hval]
    cases t <;> simp [hval]

/-- Past the end of a short row the field is omitted, not an error. -/
theorem fieldFor_out_of_range (record : List String) (i : Nat) (h : String)
    (t : fieldType) (hj : record.length ≤ i) : fieldFor record i h t = none := by
  simp only [fieldFor]
  rw [List.getD_eq_default record "" hj]
  rfl

/-- C5: the encoded row has a field for column `i` exactly when the row
has a cell there whose trimmed value is non-empty and — for numeric
columns — parses as the decided type; columns beyond a short row are
always omitted, never an error. -/
theorem claim_C5 (record headers : List String) (types : List fieldType) (i : Nat)
    (h : String) (t : fieldType) (_hget : (headers.zip types).get? i = some (h, t)) :
    recordToJSON record headers types =
      (headers.zip types).enum.filterMap (fun p => fieldFor record p.1 p.2.1 p.2.2) ∧
    ((fieldFor record i h t).isSome ↔
      (i < record.length ∧ goTrimSpace (record.getD i "") ≠ "" ∧
        (t = typeInt64 → (goParseInt64 (goTrimSpace (record.getD i ""))).isSome) ∧
        (t = typeFloat64 → goParseFloat64Ok (goTrimSpace (record.getD i "")) = true))) ∧
    (∀ j, record.length ≤ j → fieldFor record j h t = none) := by
  refine ⟨rfl, ?_, fun j hj => fieldFor_out_of_range record j h t hj⟩
  rw [fieldFor_isSome_iff]
  constructor
  · rintro ⟨hval, hrest⟩
    refine ⟨?_, hval, hrest⟩
    by_contra hnot
    exact hval (by rw [List.getD_eq_default record "" (Nat.le_of_not_lt hnot)]; rfl)
  · rintro ⟨_, hval, hrest⟩
    exact ⟨hval, hrest⟩

/-- C5 witness: a short row with one numeric cell. -/
theorem claim_C5_witness :
    (recordToJSON ["1"] ["a", "b"] [typeInt64, typeString] =
      ((["a", "b"].zip [typeInt64, typeString]).enum.filterMap
        (fun p => fieldFor ["1"] p.1 p.2.1 p.2.2))) ∧
    ((fieldFor ["1"] 0 "a" typeInt64).isSome ↔
      (0 < (["1"] : List String).length ∧ goTrimSpace ((["1"] : List String).getD 0 "") ≠ "" ∧
        (typeInt64 = typeInt64 → (goParseInt64 (goTrimSpace ((["1"] : List String).getD 0 ""))).isSome) ∧
        (typeInt64 = typeFloat64 → goParseFloat64Ok (goTrimSpace ((["1"] : List String).getD 0 "")) = true))) ∧
    (∀ j, (["1"] : List String).length ≤ j → fieldFor ["1"] j "a" typeInt64 = none) :=
  claim_C5 ["1"] ["a", "b"] [typeInt64, typeString] 0 "a" typeInt64 (by decide)

/-- The two sequential character replacements of `normalizeHeader` equal
one combined pass. -/
theorem replaceAllChar_space_dot (s : String) :
    replaceAllChar '.' '_' (replaceAllChar ' ' '_' s) =
      ⟨s.toList.map (fun c => if c = ' ' ∨ c = '.' then '_' else c)⟩ := by
  show (⟨((s.toList.map fun c => if c = ' ' then '_' else c).map
      fun c => if c = '.' then '_' else c)⟩ : String) = _
  rw [List.map_map]
  congr 1
  apply List.map_congr_left
  intro c _
  by_cases h1 : c = ' ' <;> by_cases h2 : c = '.' <;> simp [h1, h2, Function.comp]

/-- C6: header normalization is the spec's deterministic per-column
chain — strip BOM, trim, replace spaces and dots with underscore, and
fall back to the positional placeholder — with the spec's examples. -/
theorem claim_C6 :
    (∀ i h, normalizeHeader i h = normalizeHeaderSpec i h) ∧
    normalizeHeader 0 " Name." = "Name_" ∧
    (∀ i, normalizeHeader i "" = "column_" ++ toString i) ∧
    normalizeHeader 2 "" = "column_2" := by
  refine ⟨?_, by decide, ?_, by decide⟩
  · intro i h
    simp only [normalizeHeader, normalizeHeaderSpec]
    rw [replaceAllChar_space_dot]
  · intro i
    simp [normalizeHeader, stripBOM, goTrimSpace, replaceAllChar]

/-- Slot `j` of the fold of disjoint slot writes: written with its own
task's value when `j` is scheduled and in range, untouched otherwise. -/
theorem runTasks_get? {α β : Type} (f : α → β) (files : List α) (order : List Nat)
    (init : List (Option β)) (hlen : init.length = files.length) (j : Nat) :
    (order.foldl (fun res i =>
      match files.get? i with
      | some file => res.set i (some (f file))
      | none => res) init).get? j =
    if j ∈ order ∧ j < files.length then (files.get? j).map (fun x => some (f x))
    else init.get? j := by
  induction order generalizing init with
  | nil => simp
  | cons i rest ih =>
    simp only [List.foldl_cons]
    have hstep_len : (match files.get? i with
        | some file => init.set i (some (f file))
        | none => init).length = files.length := by
      cases hfi : files.get? i <;> simp [hlen]
    rw [ih _ hstep_len]
    by_cases hjrest : j ∈ rest ∧ j < files.length
    · simp [hjrest, List.mem_cons]
    · rw [if_neg hjrest]
      by_cases hji : j = i
      · subst hji
        by_cases hjlt : j < files.length
        · obtain ⟨file, hfi⟩ : ∃ file, files.get? j = some file := by
            rw [List.get?_eq_get hjlt]
            exact ⟨_, rfl⟩
          rw [hfi, List.get?_set_eq_of_lt _ (by rw [hlen]; exact hjlt)]
          simp [List.mem_cons, hjlt, hfi]
        · have hfi : files.get? j = none := List.get?_eq_none.mpr (Nat.le_of_not_lt hjlt)
          rw [hfi]
          simp [List.mem_cons, hjlt]
      · have hstep : (match files.get? i with
            | some file => init.set i (some (f file))
            | none => init).get? j = init.get? j := by
          cases hfi : files.get? i
          · rfl
          · exact List.get?_set_ne _ _ (fun hh => hji hh.symm)
        rw [hstep]
        have : ¬(j ∈ i :: rest ∧ j < files.length) := by
          rintro ⟨hm, hlt⟩
          rcases List.mem_cons.mp hm with h | h
          · exact hji h
          · exact hjrest ⟨h, hlt⟩
        rw [if_neg this]

/-- C7: the batch run's result sequence has one slot per resolved file,
slot `i` holding the conversion outcome of file `i`, for every completion
order of the concurrently admitted tasks (any permutation of the task
indices). -/
theorem claim_C7 {α β : Type} (f : α → β) (files : List α) (order : List Nat)
    (hperm : order.Perm (List.range files.length)) :
    runTasks f files order = files.map (fun x => some (f x)) := by
  apply List.ext_get?
  intro j
  rw [runTasks, runTasks_get? f files order _ (by simp) j]
  have hmem : j ∈ order ↔ j < files.length := by
    rw [hperm.mem_iff, List.mem_range]
  by_cases hj : j < files.length
  · simp [hmem, hj, List.get?_map]
  · have h1 : files[j]? = none := List.getElem?_eq_none (Nat.le_of_not_lt hj)
    have h2 : (List.replicate files.length (none : Option β))[j]? = none :=
      List.getElem?_eq_none (by simpa using Nat.le_of_not_lt hj)
    simp [hmem, hj, h1, h2]

/-- C7 witness: two files completing in reversed order still land in
input order. -/
theorem claim_C7_witness :
    runTasks (fun n : Nat => n + 1) [10, 20] [1, 0] = [some 11, some 21] :=
  claim_C7 (fun n : Nat => n + 1) [10, 20] [1, 0] (by decide)

/-- C8: when the write phase reports success, a missing or zero-length
output still fails the file, and the recorded output size is set only
when the verification passes. -/
theorem claim_C8 (inputFile : String) (cfg : Config) (env : FsEnv) (isz : Int)
    (h1 : env.statInput = some isz) (h2 : env.schema.isSome)
    (h3 : cfg.outputDir = "" ∨ env.mkdirOk = true) (h4 : env.writeOk = true) :
    ((env.statOutput = none ∨ env.statOutput = some 0) →
      ((convertFile inputFile cfg env).1.err.isSome ∧
       (convertFile inputFile cfg env).1.outputSize = 0)) ∧
    (∀ s : Int, env.statOutput = some s → s ≠ 0 →
      ((convertFile inputFile cfg env).1.err = none ∧
       (convertFile inputFile cfg env).1.outputSize = s)) := by
  obtain ⟨sch, hsch⟩ := Option.isSome_iff_exists.mp h2
  have hmk : ¬(¬cfg.outputDir = "" ∧ env.mkdirOk = false) := by
    rcases h3 with h | h
    · exact fun hc => hc.1 h
    · exact fun hc => by rw [h] at hc; exact absurd hc.2 (by simp)
  constructor
  · rintro (hout | hout) <;> simp [convertFile, h1, hsch, hmk, h4, hout]
  · intro s hout hs
    simp [convertFile, h1, hsch, hmk, h4, hout, hs]

/-- C8 witness: a successful write whose output stat fails is a failed
conversion with no recorded size. -/
theorem claim_C8_witness :
    (convertFile "x.csv" {}
      { statInput := some 3, schema := some (["a"], [typeInt64]),
        statOutput := none }).1.err.isSome ∧
    (convertFile "x.csv" {}
      { statInput := some 3, schema := some (["a"], [typeInt64]),
        statOutput := none }).1.outputSize = 0 :=
  (claim_C8 "x.csv" {}
    { statInput := some 3, schema := some (["a"], [typeInt64]), statOutput := none }
    3 rfl rfl (Or.inl rfl) rfl).1 (Or.inl rfl)

/-- C10: with any batch size ≥ 1 the streaming row loop always completes,
while batch size 0 panics with a division by zero exactly when some row
is successfully written (the code has no guard for 0). -/
theorem claim_C10 (headers : List String) (types : List fieldType)
    (events : List RowEvent) (n : Nat) :
    (∀ bs : Int, 1 ≤ bs → ∃ m, writeLoop headers types bs events n = .ok m) ∧
    ((writeLoop headers types 0 events n = .error "runtime error: integer divide by zero") ↔
      ∃ rec, RowEvent.row rec true ∈ events) := by
  constructor
  · intro bs hbs
    induction events generalizing n with
    | nil => exact ⟨n, rfl⟩
    | cons e rest ih =>
      cases e with
      | malformed => simpa [writeLoop] using ih n
      | row rec wOk =>
        cases wOk with
        | false => simpa [writeLoop] using ih n
        | true =>
          have hmod : goIntMod ((n : Int) + 1) bs = some (((n : Int) + 1) % bs) := by
            simp [goIntMod]
            omega
          simpa [writeLoop, hmod] using ih (n + 1)
  · induction events generalizing n with
    | nil => simp [writeLoop]
    | cons e rest ih =>
      cases e with
      | malformed => simpa [writeLoop] using ih n
      | row rec wOk =>
        cases wOk with
        | false => simpa [writeLoop] using ih n
        | true => simp [writeLoop, goIntMod]

/-- C10 witness: batch size 2 finishes; batch size 0 panics on the first
written row. -/
theorem claim_C10_witness :
    (∃ m, writeLoop ["a"] [typeInt64] 2 [RowEvent.row ["1"] true, RowEvent.malformed] 0 = .ok m) ∧
    (writeLoop ["a"] [typeInt64] 0 [RowEvent.row ["1"] true] 0 =
      .error "runtime error: integer divide by zero") :=
  ⟨(claim_C10 ["a"] [typeInt64] [RowEvent.row ["1"] true, RowEvent.malformed] 0).1 2 (by decide),
   (claim_C10 ["a"] [typeInt64] [RowEvent.row ["1"] true] 0).2.mpr ⟨["1"], by simp⟩⟩

/-! ### Path lemmas for C9 -/

theorem toList_mk (l : List Char) : (⟨l⟩ : String).toList = l := rfl

theorem toList_append (a b : String) : (a ++ b).toList = a.toList ++ b.toList := rfl

theorem mk_eq_mk_iff (l m : List Char) : (⟨l⟩ : String) = (⟨m⟩ : String) ↔ l = m :=
  ⟨fun h => congrArg String.data h, fun h => by rw [h]⟩

theorem mk_eq_empty_iff (l : List Char) : (⟨l⟩ : String) = "" ↔ l = [] := by
  have h : ("" : String) = ⟨[]⟩ := rfl
  rw [h, mk_eq_mk_iff]

theorem splitChars_ne_nil (cs : List Char) : splitChars cs ≠ [] := by
  cases cs with
  | nil => simp [splitChars]
  | cons c rest =>
    simp only [splitChars]
    by_cases h : c = '/'
    · simp [h]
    · rw [if_neg h]
      rcases splitChars rest with _ | ⟨a, as⟩ <;> simp

theorem splitChars_append_slash (xs ys : List Char) :
    splitChars (xs ++ '/' :: ys) = splitChars xs ++ splitChars ys := by
  induction xs with
  | nil => simp [splitChars]
  | cons c xs ih =>
    by_cases h : c = '/'
    · subst h
      show splitChars ('/' :: (xs ++ '/' :: ys)) = splitChars ('/' :: xs) ++ splitChars ys
      simp only [splitChars, if_pos rfl, ih]
      rfl
    · show splitChars (c :: (xs ++ '/' :: ys)) = splitChars (c :: xs) ++ splitChars ys
      rcases hx : splitChars xs with _ | ⟨a, as⟩
      · exact absurd hx (splitChars_ne_nil xs)
      · simp only [splitChars, if_neg h, ih, hx]
        rfl

theorem splitChars_no_slash (cs : List Char) (h : '/' ∉ cs) : splitChars cs = [cs] := by
  induction cs with
  | nil => rfl
  | cons c rest ih =>
    have hc : c ≠ '/' := fun hh => h (hh ▸ List.mem_cons_self c rest)
    have hr : '/' ∉ rest := fun hh => h (List.mem_cons_of_mem _ hh)
    simp [splitChars, hc, ih hr]

theorem joinComps_cons_cons (c c2 : List Char) (rest : List (List Char)) :
    joinComps (c :: c2 :: rest) = c ++ '/' :: joinComps (c2 :: rest) := rfl

theorem joinComps_append_single (ds : List (List Char)) (b : List Char) (hds : ds ≠ []) :
    joinComps (ds ++ [b]) = joinComps ds ++ '/' :: b := by
  induction ds with
  | nil => contradiction
  | cons c rest ih =>
    cases rest with
    | nil => simp [joinComps]
    | cons c2 rest2 =>
      have h1 : (c :: c2 :: rest2) ++ [b] = c :: ((c2 :: rest2) ++ [b]) := rfl
      rw [h1]
      rcases hmid : (c2 :: rest2) ++ [b] with _ | ⟨m, ms⟩
      · simp at hmid
      · rw [joinComps_cons_cons, joinComps_cons_cons, ← hmid, ih (by simp)]
        simp

theorem joinComps_ne_nil (c : List Char) (rest : List (List Char)) (hc : c ≠ []) :
    joinComps (c :: rest) ≠ [] := by
  cases rest <;> simp [joinComps, hc]

theorem splitChars_joinComps (comps : List (List Char)) (hne : comps ≠ [])
    (hfree : ∀ c ∈ comps, '/' ∉ c) :
    splitChars (joinComps comps) = comps := by
  induction comps with
  | nil => contradiction
  | cons c rest ih =>
    cases rest with
    | nil => simpa [joinComps] using splitChars_no_slash c (hfree c (by simp))
    | cons c2 rest2 =>
      rw [joinComps_cons_cons, splitChars_append_slash,
        splitChars_no_slash c (hfree c (by simp)),
        ih (by simp) (fun x hx => hfree x (by simp [hx]))]
      rfl

theorem cleanLoop_normal (rooted : Bool) (acc comps : List (List Char))
    (h : ∀ c ∈ comps, normalComp c) :
    cleanLoop rooted acc comps = acc ++ comps := by
  induction comps generalizing acc with
  | nil => simp [cleanLoop]
  | cons c rest ih =>
    obtain ⟨_, _, hdot, hdotdot⟩ := h c (by simp)
    simp only [cleanLoop, if_neg hdot, if_neg hdotdot]
    rw [ih (acc ++ [c]) (fun x hx => h x (by simp [hx]))]
    simp

/-- Evaluate `goClean` once the component split is known and every
component is a plain one. -/
theorem goClean_eval (l : List Char) (hl : l ≠ []) (rooted : Bool)
    (comps : List (List Char)) (hroot : (l.headI == '/') = rooted)
    (hsplit : (splitChars l).filter (· ≠ []) = comps)
    (hcomps : comps ≠ []) (hnorm : ∀ c ∈ comps, normalComp c) :
    goClean ⟨l⟩ = renderPath rooted comps := by
  have hne : (⟨l⟩ : String) ≠ "" := by rw [Ne, mk_eq_empty_iff]; exact hl
  have hloop : cleanLoop rooted [] comps = comps := by
    simpa using cleanLoop_normal rooted [] comps hnorm
  simp only [goClean, if_neg hne, toList_mk, hroot, hsplit, hloop, if_neg hcomps]

/-- Evaluate `goClean` when the path starts with a `./` element that the
loop drops. -/
theorem goClean_eval_dot (l : List Char) (hl : l ≠ []) (comps : List (List Char))
    (hroot : (l.headI == '/') = false)
    (hsplit : (splitChars l).filter (· ≠ []) = ['.'] :: comps)
    (hcomps : comps ≠ []) (hnorm : ∀ c ∈ comps, normalComp c) :
    goClean ⟨l⟩ = renderPath false comps := by
  have hne : (⟨l⟩ : String) ≠ "" := by rw [Ne, mk_eq_empty_iff]; exact hl
  have hloop : cleanLoop false [] (['.'] :: comps) = comps := by
    have h1 : cleanLoop false [] (['.'] :: comps) = cleanLoop false [] comps := by
      simp [cleanLoop]
    rw [h1]
    simpa using cleanLoop_normal false [] comps hnorm
  simp only [goClean, if_neg hne, toList_mk, hroot, hsplit, hloop, if_neg hcomps]

/-- `Ext`'s scan ignores everything before the final separator. -/
theorem extAux_stop_slash (cs t acc : List Char) (h : '/' ∉ cs) :
    extAux (cs ++ '/' :: t) acc = extAux cs acc := by
  induction cs generalizing acc with
  | nil => simp [extAux]
  | cons c cs ih =>
    have hc : c ≠ '/' := fun hh => h (hh ▸ List.mem_cons_self c cs)
    have hr : '/' ∉ cs := fun hh => h (List.mem_cons_of_mem _ hh)
    by_cases hdot : c = '.'
    · simp [extAux, hc, hdot]
    · simp [extAux, hc, hdot, ih _ hr]

/-- A non-empty extension is the final-element suffix from its last dot. -/
theorem extAux_spec (cs : List Char) : ∀ acc, extAux cs acc ≠ "" →
    ∃ pre rest, cs = pre ++ '.' :: rest ∧ (∀ x ∈ pre, x ≠ '.' ∧ x ≠ '/') ∧
      extAux cs acc = ⟨'.' :: pre.reverse ++ acc⟩ := by
  induction cs with
  | nil => exact fun acc h => absurd rfl h
  | cons c cs ih =>
    intro acc h
    by_cases h1 : c = '/'
    · exact absurd (by simp [extAux, h1]) h
    · by_cases h2 : c = '.'
      · subst h2
        exact ⟨[], cs, rfl, by simp, by simp [extAux]⟩
      · have hrec : extAux cs (c :: acc) ≠ "" := by
          simpa [extAux, h1, h2] using h
        obtain ⟨pre, rest, hcs, hpre, hval⟩ := ih (c :: acc) hrec
        refine ⟨c :: pre, rest, by rw [hcs]; rfl, ?_, ?_⟩
        · intro x hx
          rcases List.mem_cons.mp hx with rfl | hx
          · exact ⟨h2, h1⟩
          · exact hpre x hx
        · simp [extAux, h1, h2, hval]

theorem goTrimSuffix_append (pre suf : List Char) :
    goTrimSuffix ⟨pre ++ suf⟩ ⟨suf⟩ = ⟨pre⟩ := by
  have hsuf : List.isSuffixOf suf (pre ++ suf) = true := by
    rw [List.isSuffixOf_iff_suffix]
    exact List.suffix_append pre suf
  simp only [goTrimSuffix, toList_mk, hsuf, if_true]
  congr 1
  rw [List.length_append, Nat.add_sub_cancel, List.take_left]

theorem takeWhile_append_stop {p : Char → Bool} (xs : List Char) (y : Char)
    (t : List Char) (hxs : ∀ x ∈ xs, p x = true) (hy : p y = false) :
    List.takeWhile p (xs ++ y :: t) = xs := by
  induction xs with
  | nil => simp [List.takeWhile, hy]
  | cons x xs ih =>
    have hx := hxs x (by simp)
    simp [List.takeWhile, hx, ih (fun z hz => hxs z (by simp [hz]))]

theorem takeWhile_all {p : Char → Bool} (xs : List Char)
    (hxs : ∀ x ∈ xs, p x = true) : List.takeWhile p xs = xs := by
  induction xs with
  | nil => rfl
  | cons x xs ih =>
    have hx := hxs x (by simp)
    simp [List.takeWhile, hx, ih (fun z hz => hxs z (by simp [hz]))]

theorem dropWhile_append_all {p : Char → Bool} (xs t : List Char)
    (hxs : ∀ x ∈ xs, p x = true) :
    List.dropWhile p (xs ++ t) = List.dropWhile p t := by
  induction xs with
  | nil => rfl
  | cons x xs ih =>
    have hx := hxs x (by simp)
    simp [List.dropWhile, hx, ih (fun z hz => hxs z (by simp [hz]))]

theorem dropWhile_cons_false {p : Char → Bool} (x : Char) (t : List Char)
    (hx : p x = false) : List.dropWhile p (x :: t) = x :: t := by
  simp [List.dropWhile, hx]

/-- `Base` of a separator-free non-empty path is the path itself. -/
theorem goBase_no_slash (b : List Char) (hb : b ≠ []) (hfree : '/' ∉ b) :
    goBase ⟨b⟩ = ⟨b⟩ := by
  have hne : (⟨b⟩ : String) ≠ "" := by rw [Ne, mk_eq_empty_iff]; exact hb
  have hxmem : ∀ x ∈ b.reverse, x ≠ '/' :=
    fun x hx hh => hfree (hh ▸ List.mem_reverse.mp hx)
  obtain ⟨x, xs, hx⟩ : ∃ x xs, b.reverse = x :: xs := by
    cases hbx : b.reverse with
    | nil => exact absurd (by simpa using congrArg List.reverse hbx) hb
    | cons x xs => exact ⟨x, xs, rfl⟩
  have hdrop : List.dropWhile (fun x => decide (x = '/')) b.reverse = b.reverse := by
    rw [hx]
    exact dropWhile_cons_false x xs (by simp [hxmem x (by rw [hx]; simp)])
  have hrev_ne : b.reverse ≠ [] := by simpa using hb
  simp only [goBase, if_neg hne, toList_mk, hdrop, if_neg hrev_ne]
  rw [takeWhile_all b.reverse (fun z hz => by simp [hxmem z hz]), List.reverse_reverse]

/-- `Base` keeps only what follows the final separator. -/
theorem goBase_with_dir (w b : List Char) (hb : b ≠ []) (hfree : '/' ∉ b) :
    goBase ⟨w ++ '/' :: b⟩ = ⟨b⟩ := by
  have hne : (⟨w ++ '/' :: b⟩ : String) ≠ "" := by
    rw [Ne, mk_eq_empty_iff]
    simp
  have hrev : (w ++ '/' :: b).reverse = b.reverse ++ '/' :: w.reverse := by
    simp
  have hxmem : ∀ x ∈ b.reverse, x ≠ '/' :=
    fun x hx hh => hfree (hh ▸ List.mem_reverse.mp hx)
  obtain ⟨x, xs, hx⟩ : ∃ x xs, b.reverse = x :: xs := by
    cases hbx : b.reverse with
    | nil => exact absurd (by simpa using congrArg List.reverse hbx) hb
    | cons x xs => exact ⟨x, xs, rfl⟩
  have hdrop : List.dropWhile (fun x => decide (x = '/')) (b.reverse ++ '/' :: w.reverse) =
      b.reverse ++ '/' :: w.reverse := by
    rw [hx]
    exact dropWhile_cons_false x _ (by simp [hxmem x (by rw [hx]; simp)])
  have hrest_ne : b.reverse ++ '/' :: w.reverse ≠ [] := by simp
  simp only [goBase, if_neg hne, toList_mk, hrev, hdrop, if_neg hrest_ne]
  rw [takeWhile_append_stop b.reverse '/' w.reverse (fun z hz => by simp [hxmem z hz]) (by simp),
    List.reverse_reverse]

/-- `Dir` of a separator-free path is `.`. -/
theorem goDir_no_slash (b : List Char) (hfree : '/' ∉ b) : goDir ⟨b⟩ = "." := by
  have hbr : ∀ x ∈ b.reverse, (decide ¬x = '/') = true := by
    intro x hx
    simp only [decide_eq_true_eq]
    exact fun hh => hfree (hh ▸ List.mem_reverse.mp hx)
  have hdrop : List.dropWhile (fun x => decide ¬x = '/') b.reverse = [] := by
    have := dropWhile_append_all (p := fun x => decide ¬x = '/') b.reverse [] hbr
    simpa using this
  simp only [goDir, toList_mk, hdrop]
  rfl

theorem splitChars_cons_slash (t : List Char) : splitChars ('/' :: t) = [] :: splitChars t := by
  simp [splitChars]

/-- `Ext` only inspects the final element. -/
theorem goExt_with_dir (w b : List Char) (hfree : '/' ∉ b) :
    goExt ⟨w ++ '/' :: b⟩ = goExt ⟨b⟩ := by
  show extAux (w ++ '/' :: b).reverse [] = extAux b.reverse []
  have hrev : (w ++ '/' :: b).reverse = b.reverse ++ '/' :: w.reverse := by simp
  rw [hrev, extAux_stop_slash b.reverse w.reverse []
    (fun hh => hfree (List.mem_reverse.mp hh))]

/-- A path whose `Ext` is `.parquet` ends in those characters. -/
theorem ext_decomp (b : List Char) (hext : goExt ⟨b⟩ = ".parquet") :
    ∃ pre2, b = pre2 ++ ".parquet".toList := by
  have hgo : goExt ⟨b⟩ = extAux b.reverse [] := rfl
  have hne : extAux b.reverse [] ≠ "" := by
    rw [← hgo, hext]
    decide
  obtain ⟨pre, rest, hrev, _, hval⟩ := extAux_spec b.reverse [] hne
  have hlist : '.' :: pre.reverse = ".parquet".toList := by
    have h1 : (⟨'.' :: pre.reverse ++ []⟩ : String) = ".parquet" := by
      rw [← hval, ← hgo, hext]
    have h2 := congrArg String.data h1
    simpa using h2
  refine ⟨rest.reverse, ?_⟩
  have hb : b = (pre ++ '.' :: rest).reverse := by
    rw [← hrev, List.reverse_reverse]
  rw [hb, List.reverse_append, List.reverse_cons, List.append_assoc, ← hlist]
  simp

/-- `headI` of a rendered directory prefix: `/` iff rooted. -/
theorem headI_render_beq (rooted : Bool) (d : List Char) (ds' : List (List Char))
    (z : List Char) (hd : d ≠ []) (hdfree : '/' ∉ d) :
    ((((if rooted then ['/'] else []) ++ joinComps (d :: ds')) ++ z).headI == '/') = rooted := by
  obtain ⟨x, xs, rfl⟩ : ∃ x xs, d = x :: xs := by
    cases d with
    | nil => contradiction
    | cons x xs => exact ⟨x, xs, rfl⟩
  have hx : x ≠ '/' := fun hh => hdfree (hh ▸ List.mem_cons_self x xs)
  cases rooted
  · have hj : ∃ t, joinComps ((x :: xs) :: ds') = x :: t := by
      cases ds' with
      | nil => exact ⟨xs, rfl⟩
      | cons c2 rest2 => exact ⟨xs ++ '/' :: joinComps (c2 :: rest2), rfl⟩
    obtain ⟨t, ht⟩ := hj
    simp [ht, hx]
  · simp

/-- Splitting a rendered directory prefix followed by `/` and a tail. -/
theorem splitChars_render_slash (rooted : Bool) (comps : List (List Char)) (z : List Char)
    (hne : comps ≠ []) (hfree : ∀ c ∈ comps, '/' ∉ c) :
    splitChars (((if rooted then ['/'] else []) ++ joinComps comps) ++ '/' :: z) =
      (if rooted then [([] : List Char)] else []) ++ comps ++ splitChars z := by
  cases rooted
  · show splitChars (([] ++ joinComps comps) ++ '/' :: z) = [] ++ comps ++ splitChars z
    rw [List.nil_append, splitChars_append_slash,
      splitChars_joinComps comps hne hfree, List.nil_append]
  · show splitChars ((['/'] ++ joinComps comps) ++ '/' :: z) = [[]] ++ comps ++ splitChars z
    have h1 : (['/'] ++ joinComps comps) ++ '/' :: z = '/' :: (joinComps comps ++ '/' :: z) := rfl
    rw [h1, splitChars_cons_slash, splitChars_append_slash,
      splitChars_joinComps comps hne hfree]
    rfl

/-- `Dir` keeps everything up to and including the final separator and
cleans it. -/
theorem goDir_with_dir (w b : List Char) (hfree : '/' ∉ b) :
    goDir ⟨w ++ '/' :: b⟩ = goClean ⟨w ++ ['/']⟩ := by
  have hrev : (w ++ '/' :: b).reverse = b.reverse ++ '/' :: w.reverse := by
    simp
  have hbr : ∀ x ∈ b.reverse, (decide ¬x = '/') = true := by
    intro x hx
    simp only [decide_eq_true_eq]
    exact fun hh => hfree (hh ▸ List.mem_reverse.mp hx)
  have hdrop : List.dropWhile (fun x => decide ¬x = '/') (b.reverse ++ '/' :: w.reverse) =
      '/' :: w.reverse := by
    rw [dropWhile_append_all _ _ hbr]
    exact dropWhile_cons_false '/' w.reverse (by simp)
  simp only [goDir, toList_mk, hrev, hdrop]
  congr 1
  rw [mk_eq_mk_iff]
  simp

/-- For a normal-form input path (optionally rooted, plain components)
whose extension is `.parquet` and an empty output directory, `outputPath`
returns the input path itself. -/
theorem outputPath_normal (rooted : Bool) (ds : List (List Char)) (b : List Char)
    (hds : ∀ c ∈ ds, normalComp c) (hb : normalComp b)
    (hext : goExt (renderPath rooted (ds ++ [b])) = ".parquet")
    (cfg : Config) (hout : cfg.outputDir = "") :
    outputPath (renderPath rooted (ds ++ [b])) cfg = renderPath rooted (ds ++ [b]) := by
  obtain ⟨hb_ne, hb_free, hb_d1, hb_d2⟩ := hb
  have hBne : (⟨b⟩ : String) ≠ "" := by rw [Ne, mk_eq_empty_iff]; exact hb_ne
  have hbnorm : ∀ c ∈ [b], normalComp c := by
    intro c hc
    rw [List.mem_singleton.mp hc]
    exact ⟨hb_ne, hb_free, hb_d1, hb_d2⟩
  have hop : ∀ p : String,
      outputPath p cfg = goJoin (goDir p) (goTrimSuffix (goBase p) (goExt p) ++ ".parquet") := by
    intro p
    simp [outputPath, hout]
  rcases ds with _ | ⟨d, ds'⟩
  · cases rooted
    · -- single unrooted component: the path is just `b`
      have hp : renderPath false ([] ++ [b]) = (⟨b⟩ : String) := rfl
      rw [hp] at hext ⊢
      obtain ⟨pre2, hb2⟩ := ext_decomp b hext
      have htrim : goTrimSuffix ⟨b⟩ ".parquet" = ⟨pre2⟩ := by
        rw [hb2]
        exact goTrimSuffix_append pre2 _
      have hbase2 : (⟨pre2⟩ : String) ++ ".parquet" = ⟨b⟩ := by rw [hb2]; rfl
      rw [hop, goBase_no_slash b hb_ne hb_free, goDir_no_slash b hb_free, hext,
        htrim, hbase2]
      have hjoin : goJoin "." ⟨b⟩ = goClean ("." ++ "/" ++ ⟨b⟩) := by
        simp [goJoin, hBne]
      rw [hjoin, show ("." ++ "/" ++ (⟨b⟩ : String)) = ⟨'.' :: '/' :: b⟩ from rfl]
      have hsplit : (splitChars ('.' :: '/' :: b)).filter (· ≠ []) = ['.'] :: [b] := by
        rw [show ('.' :: '/' :: b : List Char) = ['.'] ++ '/' :: b from rfl,
          splitChars_append_slash, splitChars_no_slash ['.'] (by decide),
          splitChars_no_slash b hb_free]
        simp [hb_ne]
      rw [goClean_eval_dot ('.' :: '/' :: b) (by simp) [b] rfl hsplit (by simp) hbnorm]
      rfl
    · -- single rooted component: the path is `/b`
      have hp : renderPath true ([] ++ [b]) = (⟨([] : List Char) ++ '/' :: b⟩ : String) := rfl
      rw [hp] at hext ⊢
      have hbext : goExt ⟨b⟩ = ".parquet" := by
        rw [← goExt_with_dir [] b hb_free]
        exact hext
      obtain ⟨pre2, hb2⟩ := ext_decomp b hbext
      have htrim : goTrimSuffix ⟨b⟩ ".parquet" = ⟨pre2⟩ := by
        rw [hb2]
        exact goTrimSuffix_append pre2 _
      have hbase2 : (⟨pre2⟩ : String) ++ ".parquet" = ⟨b⟩ := by rw [hb2]; rfl
      rw [hop, goBase_with_dir [] b hb_ne hb_free, goDir_with_dir [] b hb_free,
        goExt_with_dir [] b hb_free, hbext, htrim, hbase2]
      rw [show goClean ⟨([] : List Char) ++ ['/']⟩ = "/" by decide]
      have hjoin : goJoin "/" ⟨b⟩ = goClean ("/" ++ "/" ++ ⟨b⟩) := by
        simp [goJoin, hBne]
      rw [hjoin, show ("/" ++ "/" ++ (⟨b⟩ : String)) = ⟨'/' :: '/' :: b⟩ from rfl]
      have hsplit : (splitChars ('/' :: '/' :: b)).filter (· ≠ []) = [b] := by
        rw [splitChars_cons_slash, splitChars_cons_slash, splitChars_no_slash b hb_free]
        simp [hb_ne]
      rw [goClean_eval ('/' :: '/' :: b) (by simp) true [b] rfl hsplit (by simp) hbnorm]
      rfl
  · -- at least one directory component
    obtain ⟨hd_ne, hd_free, _, _⟩ := hds d (List.mem_cons_self d ds')
    have hdsfree : ∀ c ∈ d :: ds', '/' ∉ c := fun c hc => (hds c hc).2.1
    have hfilter : (d :: ds').filter (· ≠ []) = d :: ds' :=
      List.filter_eq_self.mpr (fun c hc => by simp [(hds c hc).1])
    have hsingle : List.filter (fun x => decide (x ≠ ([] : List Char))) [[]] = [] := by
      simp
    have hpl : renderPath rooted ((d :: ds') ++ [b]) =
        ⟨((if rooted then ['/'] else []) ++ joinComps (d :: ds')) ++ '/' :: b⟩ := by
      show (⟨(if rooted then ['/'] else []) ++ joinComps ((d :: ds') ++ [b])⟩ : String) = _
      rw [mk_eq_mk_iff, joinComps_append_single (d :: ds') b (by simp), List.append_assoc]
    rw [hpl] at hext ⊢
    have hbext : goExt ⟨b⟩ = ".parquet" := by
      rw [← goExt_with_dir ((if rooted then ['/'] else []) ++ joinComps (d :: ds')) b hb_free]
      exact hext
    obtain ⟨pre2, hb2⟩ := ext_decomp b hbext
    have htrim : goTrimSuffix ⟨b⟩ ".parquet" = ⟨pre2⟩ := by
      rw [hb2]
      exact goTrimSuffix_append pre2 _
    have hbase2 : (⟨pre2⟩ : String) ++ ".parquet" = ⟨b⟩ := by rw [hb2]; rfl
    rw [hop, goBase_with_dir _ b hb_ne hb_free, goDir_with_dir _ b hb_free,
      goExt_with_dir _ b hb_free, hbext, htrim, hbase2]
    have hdir : goClean ⟨((if rooted then ['/'] else []) ++ joinComps (d :: ds')) ++ ['/']⟩ =
        renderPath rooted (d :: ds') := by
      apply goClean_eval _ (by simp) rooted (d :: ds')
      · exact headI_render_beq rooted d ds' ['/'] hd_ne hd_free
      · rw [show ((if rooted then ['/'] else []) ++ joinComps (d :: ds')) ++ ['/'] =
            ((if rooted then ['/'] else []) ++ joinComps (d :: ds')) ++ '/' :: [] from rfl,
          splitChars_render_slash rooted (d :: ds') [] (by simp) hdsfree]
        cases rooted
        · show ((([] : List (List Char)) ++ (d :: ds')) ++ splitChars []).filter (· ≠ []) = d :: ds'
          rw [List.nil_append, show splitChars ([] : List Char) = [[]] from rfl,
            List.filter_append, hfilter, hsingle, List.append_nil]
        · show (([([] : List Char)] ++ (d :: ds')) ++ splitChars []).filter (· ≠ []) = d :: ds'
          rw [show splitChars ([] : List Char) = [[]] from rfl, List.filter_append,
            List.filter_append, hfilter, hsingle, List.append_nil, List.nil_append]
      · simp
      · exact hds
    rw [hdir]
    have hdir_ne : renderPath rooted (d :: ds') ≠ "" := by
      show (⟨(if rooted then ['/'] else []) ++ joinComps (d :: ds')⟩ : String) ≠ ""
      rw [Ne, mk_eq_empty_iff]
      cases rooted <;> simp [joinComps_ne_nil d ds' hd_ne]
    have hjoin : goJoin (renderPath rooted (d :: ds')) ⟨b⟩ =
        goClean (renderPath rooted (d :: ds') ++ "/" ++ ⟨b⟩) := by
      simp [goJoin, hdir_ne, hBne]
    rw [hjoin]
    have hcat : (renderPath rooted (d :: ds') ++ "/" ++ (⟨b⟩ : String)) =
        ⟨((if rooted then ['/'] else []) ++ joinComps (d :: ds')) ++ '/' :: b⟩ := by
      show (⟨(((if rooted then ['/'] else []) ++ joinComps (d :: ds')) ++ "/".data) ++ b⟩ : String) = _
      rw [mk_eq_mk_iff, List.append_assoc]
      rfl
    rw [hcat]
    have hbfilt : List.filter (fun x => decide (x ≠ ([] : List Char))) [b] = [b] := by
      simp [hb_ne]
    have hsplit2 : (splitChars (((if rooted then ['/'] else []) ++ joinComps (d :: ds')) ++ '/' :: b)).filter
        (· ≠ []) = (d :: ds') ++ [b] := by
      rw [splitChars_render_slash rooted (d :: ds') b (by simp) hdsfree,
        splitChars_no_slash b hb_free]
      cases rooted
      · show ((([] : List (List Char)) ++ (d :: ds')) ++ [b]).filter (· ≠ []) = (d :: ds') ++ [b]
        rw [List.nil_append, List.filter_append, hfilter, hbfilt]
      · show (([([] : List Char)] ++ (d :: ds')) ++ [b]).filter (· ≠ []) = (d :: ds') ++ [b]
        rw [List.filter_append, List.filter_append, hfilter, hbfilt, hsingle, List.nil_append]
    have hnorm2 : ∀ c ∈ (d :: ds') ++ [b], normalComp c := by
      intro c hc
      rcases List.mem_append.mp hc with h | h
      · exact hds c h
      · exact hbnorm c h
    rw [goClean_eval _ (by simp) rooted ((d :: ds') ++ [b])
      (headI_render_beq rooted d ds' ('/' :: b) hd_ne hd_free) hsplit2 (by simp) hnorm2]
    rw [hpl]

/-- C9 counterexample: for the non-clean input `./x.parquet` (extension
already `.parquet`, empty output directory) the computed destination is
the lexically cleaned `x.parquet`, not the input path string itself. -/
theorem claim_C9_counterexample :
    goExt "./x.parquet" = ".parquet" ∧
    outputPath "./x.parquet" {} = "x.parquet" ∧
    ("x.parquet" : String) ≠ "./x.parquet" := by
  refine ⟨by decide, by decide, by decide⟩

/-- C9 (amended): for every input path in normal form (optionally rooted,
`/`-separated plain components, no `.`/`..`/empty elements) whose
extension is already `.parquet`, with an empty output directory the
destination equals the input path itself, so a successful conversion
writes to its own source file and — when delete-original is configured —
the post-success delete removes that same path.  (In general the
destination is the lexically cleaned input, which names the same file.) -/
theorem claim_C9_amended (rooted : Bool) (ds : List (List Char)) (b : List Char)
    (hds : ∀ c ∈ ds, normalComp c) (hb : normalComp b)
    (hext : goExt (renderPath rooted (ds ++ [b])) = ".parquet")
    (cfg : Config) (hout : cfg.outputDir = "") (hdel : cfg.deleteOriginal = true)
    (env : FsEnv) (isz osz : Int) (h1 : env.statInput = some isz)
    (h2 : env.schema.isSome) (h4 : env.writeOk = true)
    (h5 : env.statOutput = some osz) (h6 : osz ≠ 0) (h7 : env.removeInputOk = true) :
    outputPath (renderPath rooted (ds ++ [b])) cfg = renderPath rooted (ds ++ [b]) ∧
    (convertFile (renderPath rooted (ds ++ [b])) cfg env).2 =
      [FsAction.wrote (renderPath rooted (ds ++ [b])),
       FsAction.deletedOriginal (renderPath rooted (ds ++ [b]))] := by
  have hpath := outputPath_normal rooted ds b hds hb hext cfg hout
  refine ⟨hpath, ?_⟩
  obtain ⟨sch, hsch⟩ := Option.isSome_iff_exists.mp h2
  simp [convertFile, h1, hsch, hout, h4, h5, h6, hdel, h7, hpath]

/-- C9 witness: the amended statement at the concrete path `d/x.parquet`
with a fully successful conversion environment. -/
theorem claim_C9_amended_witness :
    outputPath (renderPath false ([['d']] ++ ["x.parquet".toList])) {} =
      renderPath false ([['d']] ++ ["x.parquet".toList]) ∧
    (convertFile (renderPath false ([['d']] ++ ["x.parquet".toList])) {}
      { statInput := some 3, schema := some (["a"], [typeInt64]),
        statOutput := some 5 }).2 =
      [FsAction.wrote (renderPath false ([['d']] ++ ["x.parquet".toList])),
       FsAction.deletedOriginal (renderPath false ([['d']] ++ ["x.parquet".toList]))] :=
  claim_C9_amended false [['d']] "x.parquet".toList (by decide) (by decide) (by decide)
    {} rfl rfl
    { statInput := some 3, schema := some (["a"], [typeInt64]), statOutput := some 5 }
    3 5 rfl rfl rfl rfl (by decide) rfl

end CsvToParquet
